import Mathlib

/-!
# Verification of the VlaPy numerical core

A shallow embedding, in Lean 4, of the phase-space stepping engine of the
VlaPy 1D-1V Vlasov-Poisson-Fokker-Planck solver, together with theorems that
settle a list of claims about it.

Conventions used throughout:
* numpy arrays are embedded as total functions `ℕ → K` (1D) or `ℕ → ℕ → K`
  (2D, row index first) over an exact field `K` (`ℚ` where the claim only
  needs field arithmetic, `ℝ`/`ℂ` where transcendental functions occur),
  together with explicit size parameters; claims are stated on the in-range
  indices.
* `np.trapz`, `np.fft.fft`, `np.fft.ifft`, `np.fft.fftfreq` are embedded by
  their documented pointwise formulas.
* fallible configuration dispatch is embedded with `Option` (`none` stands
  for `raise NotImplementedError`).
-/

namespace VlaPy

/-- `np.trapz(y, dx := dx)` applied to the first `n` samples of `y`:
the composite trapezoidal rule `dx * Σ_{i<n-1} (y i + y (i+1)) / 2`.
(For `n = 0` or `n = 1` the result is `0`, as in numpy.) -/
def trapz {K : Type} [Field K] (dx : K) (n : ℕ) (y : ℕ → K) : K :=
  dx * ∑ i ∈ Finset.range (n - 1), (y i + y (i + 1)) / 2

/-! ## Collision-operator coefficient builders

From `src/vlapy/core/collisions.py`.

`make_philharmonic_arrays_for_matrix` (lines 44-81) builds the Lenard-Bernstein
tridiagonal coefficients; `make_dougherty_arrays_for_matrix` (lines 104-158)
builds the Dougherty ones.  The numpy arrays `a` (shape `(nx, nv-1)`),
`b` (shape `(nx, nv)`) and `c` (shape `(nx, nv-1)`) become functions of the
row index `ix` and the column index `j`; `c`'s use of `vax[1:]` means its
column `j` reads `vax (j+1)`, and `a`'s use of `vax[:-1]` means its column `j`
reads `vax j`, exactly as the slices do. -/

/-- `v0t_sq` of the Lenard-Bernstein builder: the per-row trapezoidal second
velocity moment `np.trapz(f * vax**2, dx=dv, axis=1)`. -/
def lbV0tSq (vax : ℕ → ℚ) (nv : ℕ) (dv : ℚ) (f : ℕ → ℕ → ℚ) (ix : ℕ) : ℚ :=
  trapz dv nv (fun j => f ix j * vax j ^ 2)

/-- Sub-diagonal `a` of the Lenard-Bernstein operator (columns `0..nv-2`). -/
def makePhilharmonicA (vax : ℕ → ℚ) (nv : ℕ) (nu dt dv : ℚ) (f : ℕ → ℕ → ℚ)
    (ix j : ℕ) : ℚ :=
  nu * dt * (-(lbV0tSq vax nv dv f ix) / dv ^ 2 + vax j / 2 / dv)

/-- Diagonal `b` of the Lenard-Bernstein operator (columns `0..nv-1`). -/
def makePhilharmonicB (vax : ℕ → ℚ) (nv : ℕ) (nu dt dv : ℚ) (f : ℕ → ℕ → ℚ)
    (ix _j : ℕ) : ℚ :=
  1 + nu * dt * (2 * lbV0tSq vax nv dv f ix / dv ^ 2)

/-- Super-diagonal `c` of the Lenard-Bernstein operator (columns `0..nv-2`);
its column `j` reads `vax (j+1)` because the source slices `vax[1:]`. -/
def makePhilharmonicC (vax : ℕ → ℚ) (nv : ℕ) (nu dt dv : ℚ) (f : ℕ → ℕ → ℚ)
    (ix j : ℕ) : ℚ :=
  nu * dt * (-(lbV0tSq vax nv dv f ix) / dv ^ 2 - vax (j + 1) / 2 / dv)

/-- `vbar` of the Dougherty builder: the per-row trapezoidal first velocity
moment `np.trapz(f * vax, dx=dv, axis=1)`. -/
def dgVbar (vax : ℕ → ℚ) (nv : ℕ) (dv : ℚ) (f : ℕ → ℕ → ℚ) (ix : ℕ) : ℚ :=
  trapz dv nv (fun j => f ix j * vax j)

/-- `v0t_sq` of the Dougherty builder: the per-row trapezoidal centered second
velocity moment `np.trapz(f * (vax - vbar)**2, dx=dv, axis=1)`. -/
def dgV0tSq (vax : ℕ → ℚ) (nv : ℕ) (dv : ℚ) (f : ℕ → ℕ → ℚ) (ix : ℕ) : ℚ :=
  trapz dv nv (fun j => f ix j * (vax j - dgVbar vax nv dv f ix) ^ 2)

/-- Sub-diagonal `a` of the Dougherty operator (columns `0..nv-2`). -/
def makeDoughertyA (vax : ℕ → ℚ) (nv : ℕ) (nu dt dv : ℚ) (f : ℕ → ℕ → ℚ)
    (ix j : ℕ) : ℚ :=
  nu * dt * (-(dgV0tSq vax nv dv f ix) / dv ^ 2
    + (vax j - dgVbar vax nv dv f ix) / 2 / dv)

/-- Diagonal `b` of the Dougherty operator (columns `0..nv-1`). -/
def makeDoughertyB (vax : ℕ → ℚ) (nv : ℕ) (nu dt dv : ℚ) (f : ℕ → ℕ → ℚ)
    (ix _j : ℕ) : ℚ :=
  1 + nu * dt * (2 * dgV0tSq vax nv dv f ix / dv ^ 2)

/-- Super-diagonal `c` of the Dougherty operator (columns `0..nv-2`); its
column `j` reads `vax (j+1)` because the source slices `vax[1:]`. -/
def makeDoughertyC (vax : ℕ → ℚ) (nv : ℕ) (nu dt dv : ℚ) (f : ℕ → ℕ → ℚ)
    (ix j : ℕ) : ℚ :=
  nu * dt * (-(dgV0tSq vax nv dv f ix) / dv ^ 2
    - (vax (j + 1) - dgVbar vax nv dv f ix) / 2 / dv)

/-! ### Claim C4: the discrete column-sum condition -/

/-- C4 as stated is false on the code: the stated identity
`a[:, j] + (b[:, j+1] - 1) + c[:, j] = 0` fails at the concrete input
`vax = (0,1,2)`, `nv = 3`, `nu = dt = dv = 1`, `f ≡ 1`, `j = 0`
(the only interior column of a 3-point grid), where it evaluates to `-1/2`:
the correct identity pairs `a[:, j+1]` (not `a[:, j]`) with `b[:, j+1]` and
`c[:, j]`, because column `j+1` of the tridiagonal matrix holds
`c[:, j]`, `b[:, j+1]` and `a[:, j+1]`. -/
theorem claim4_counterexample :
    ¬ (makePhilharmonicA (fun j => (j : ℚ)) 3 1 1 1 (fun _ _ => 1) 0 0
      + (makePhilharmonicB (fun j => (j : ℚ)) 3 1 1 1 (fun _ _ => 1) 0 1 - 1)
      + makePhilharmonicC (fun j => (j : ℚ)) 3 1 1 1 (fun _ _ => 1) 0 0 = 0) := by
  norm_num [makePhilharmonicA, makePhilharmonicB, makePhilharmonicC, lbV0tSq,
    trapz, Finset.sum_range_succ]

/-- C4 (amended): in exact arithmetic both the Lenard-Bernstein and the
Dougherty coefficient builders satisfy the discrete column-sum condition
`a[:, j+1] + (b[:, j+1] - 1) + c[:, j] = 0` at every interior column
`j + 1 ∈ {1, …, nv-2}` of the tridiagonal operator (equivalently
`a[:, j] + (b[:, j] - 1) + c[:, j-1] = 0` for `1 ≤ j ≤ nv-2`); this is the
exact-arithmetic identity underlying discrete density conservation. -/
theorem claim4_amended_column_sum (vax : ℕ → ℚ) (nv : ℕ) (nu dt dv : ℚ)
    (f : ℕ → ℕ → ℚ) (ix j : ℕ) (_hj : j + 3 ≤ nv) :
    makePhilharmonicA vax nv nu dt dv f ix (j + 1)
      + (makePhilharmonicB vax nv nu dt dv f ix (j + 1) - 1)
      + makePhilharmonicC vax nv nu dt dv f ix j = 0 ∧
    makeDoughertyA vax nv nu dt dv f ix (j + 1)
      + (makeDoughertyB vax nv nu dt dv f ix (j + 1) - 1)
      + makeDoughertyC vax nv nu dt dv f ix j = 0 := by
  constructor
  · unfold makePhilharmonicA makePhilharmonicB makePhilharmonicC
    ring
  · unfold makeDoughertyA makeDoughertyB makeDoughertyC
    ring

/-- Witness for C4 (amended) at the concrete interior column of a
three-point velocity grid. -/
theorem claim4_amended_column_sum_witness :
    0 + 3 ≤ 3 ∧
    (makePhilharmonicA (fun j => (j : ℚ)) 3 1 1 1 (fun _ _ => 1) 0 1
      + (makePhilharmonicB (fun j => (j : ℚ)) 3 1 1 1 (fun _ _ => 1) 0 1 - 1)
      + makePhilharmonicC (fun j => (j : ℚ)) 3 1 1 1 (fun _ _ => 1) 0 0 = 0 ∧
    makeDoughertyA (fun j => (j : ℚ)) 3 1 1 1 (fun _ _ => 1) 0 1
      + (makeDoughertyB (fun j => (j : ℚ)) 3 1 1 1 (fun _ _ => 1) 0 1 - 1)
      + makeDoughertyC (fun j => (j : ℚ)) 3 1 1 1 (fun _ _ => 1) 0 0 = 0) :=
  ⟨by omega,
   claim4_amended_column_sum (fun j => (j : ℚ)) 3 1 1 1 (fun _ _ => 1) 0 0
     (by omega)⟩

/-! ## Tridiagonal solvers

From `src/vlapy/core/collisions.py`.

`_batched_tridiag_solver_` (lines 223-254) runs the Thomas elimination on all
spatial rows at once: every statement in its two loops is an elementwise
vector operation over the row index, so the value it computes for row `ix`
depends only on row `ix` of its inputs, and the algorithm is embedded by the
scalar per-row recurrences below (the literal copy/alias/loop structure of
the source is embedded separately, on a mutable store, for claim C5).

`ac`, `cc` and the input arrays are never written after the initial copies;
`bc` carries the forward-eliminated diagonal, and `dc` the eliminated
right-hand side.  The source aliases `xc = bc` and overwrites `xc[:, il]`
only after reading `bc[:, il]` in the same statement, so back substitution
sees the eliminated values, as in the standard Thomas algorithm. -/

/-- Forward-eliminated diagonal `bc` of the Thomas sweep:
`bc[0] = b[0]`, `bc[it] = b[it] - (a[it-1]/bc[it-1]) * c[it-1]`. -/
def thomasBC (a b c : ℕ → ℚ) : ℕ → ℚ
  | 0 => b 0
  | i + 1 => b (i + 1) - a i / thomasBC a b c i * c i

/-- Forward-eliminated right-hand side `dc` of the Thomas sweep:
`dc[0] = f[0]`, `dc[it] = f[it] - (a[it-1]/bc[it-1]) * dc[it-1]`. -/
def thomasDC (a b c d : ℕ → ℚ) : ℕ → ℚ
  | 0 => d 0
  | i + 1 => d (i + 1) - a i / thomasBC a b c i * thomasDC a b c d i

/-- Back-substitution values, indexed by distance `k` from the last cell:
`thomasXAux n a b c d k` is the solution entry at position `n - 1 - k`. -/
def thomasXAux (n : ℕ) (a b c d : ℕ → ℚ) : ℕ → ℚ
  | 0 => thomasDC a b c d (n - 1) / thomasBC a b c (n - 1)
  | k + 1 =>
    (thomasDC a b c d (n - 2 - k) - c (n - 2 - k) * thomasXAux n a b c d k)
      / thomasBC a b c (n - 2 - k)

/-- Solution entry `xc[:, i]` of the Thomas solve on one row:
`xc[n-1] = dc[n-1]/bc[n-1]`, `xc[il] = (dc[il] - c[il]*xc[il+1])/bc[il]`. -/
def thomasX (n : ℕ) (a b c d : ℕ → ℚ) (i : ℕ) : ℚ :=
  thomasXAux n a b c d (n - 1 - i)

/-- The batched tridiagonal solver returned by `get_batched_tridiag_solver`:
row `ix` of the result is the Thomas solve of row `ix` of the inputs. -/
def batchedTridiagSolver (nv : ℕ) (a b c f : ℕ → ℕ → ℚ) (ix j : ℕ) : ℚ :=
  thomasX nv (a ix) (b ix) (c ix) (f ix) j

/-- Entry `(i, j)` of the dense matrix `leftside` assembled by the naive
solver (`get_naive_solver`, lines 163-219):
`np.diag(a, -1) + np.diag(b, 0) + np.diag(c, 1)`. -/
def naiveLeftside (a b c : ℕ → ℚ) (i j : ℕ) : ℚ :=
  (if i = j + 1 then a j else 0) + (if i = j then b i else 0)
    + (if j = i + 1 then c i else 0)

/-- Row `i` of the dense matrix-vector product `leftside @ x`. -/
def denseMulRow (a b c : ℕ → ℚ) (n : ℕ) (x : ℕ → ℚ) (i : ℕ) : ℚ :=
  ∑ j ∈ Finset.range n, naiveLeftside a b c i j * x j

/-- Modelled from the spec: the body of the naive solver calls the external
dense routine `np.linalg.solve(leftside, f[ix])`, whose contract (for the
nonsingular systems of this claim) is to return the solution of the linear
system.  `naiveSolverReturns … g` says that `g` is a possible return value
of the naive solver: every in-range row of `g` solves its dense system. -/
def naiveSolverReturns (nx nv : ℕ) (a b c f g : ℕ → ℕ → ℚ) : Prop :=
  ∀ ix < nx, ∀ i < nv, denseMulRow (a ix) (b ix) (c ix) nv (g ix) i = f ix i

lemma denseMulRow_zero (a b c : ℕ → ℚ) (n : ℕ) (x : ℕ → ℚ) (hn : 0 < n) :
    denseMulRow a b c n x 0
      = b 0 * x 0 + (if 1 < n then c 0 * x 1 else 0) := by
  unfold denseMulRow naiveLeftside
  simp only [add_mul, Finset.sum_add_distrib, ite_mul, zero_mul]
  have h1 : (∑ j ∈ Finset.range n, if 0 = j + 1 then a j * x j else 0) = 0 :=
    Finset.sum_eq_zero fun j _ => if_neg (by omega)
  have h2 : (∑ j ∈ Finset.range n, if 0 = j then b 0 * x j else 0)
      = b 0 * x 0 := by
    rw [Finset.sum_ite_eq, if_pos (Finset.mem_range.mpr hn)]
  have h3 : (∑ j ∈ Finset.range n, if j = 0 + 1 then c 0 * x j else 0)
      = if 1 < n then c 0 * x 1 else 0 := by
    rw [Finset.sum_ite_eq', if_congr (by rw [Finset.mem_range]) rfl rfl]
  rw [h1, h2, h3]
  ring_nf

lemma denseMulRow_succ (a b c : ℕ → ℚ) (n : ℕ) (x : ℕ → ℚ) (k : ℕ)
    (hk : k + 1 < n) :
    denseMulRow a b c n x (k + 1)
      = a k * x k + b (k + 1) * x (k + 1)
        + (if k + 2 < n then c (k + 1) * x (k + 2) else 0) := by
  unfold denseMulRow naiveLeftside
  simp only [add_mul, Finset.sum_add_distrib, ite_mul, zero_mul]
  have h1 : (∑ j ∈ Finset.range n, if k + 1 = j + 1 then a j * x j else 0)
      = a k * x k := by
    have : ∀ j, (k + 1 = j + 1) = (k = j) := fun j => by
      apply propext; omega
    simp only [this]
    rw [Finset.sum_ite_eq, if_pos (Finset.mem_range.mpr (by omega))]
  have h2 : (∑ j ∈ Finset.range n, if k + 1 = j then b (k + 1) * x j else 0)
      = b (k + 1) * x (k + 1) := by
    rw [Finset.sum_ite_eq, if_pos (Finset.mem_range.mpr hk)]
  have h3 : (∑ j ∈ Finset.range n, if j = k + 1 + 1 then c (k + 1) * x j else 0)
      = if k + 2 < n then c (k + 1) * x (k + 2) else 0 := by
    rw [Finset.sum_ite_eq', if_congr (by rw [Finset.mem_range]) rfl rfl]
  rw [h1, h2, h3]

lemma thomasX_last (n : ℕ) (a b c d : ℕ → ℚ) :
    thomasX n a b c d (n - 1)
      = thomasDC a b c d (n - 1) / thomasBC a b c (n - 1) := by
  unfold thomasX
  rw [Nat.sub_self]
  rfl

lemma thomasX_rec (n : ℕ) (a b c d : ℕ → ℚ) (i : ℕ) (hi : i + 1 < n) :
    thomasX n a b c d i
      = (thomasDC a b c d i - c i * thomasX n a b c d (i + 1))
          / thomasBC a b c i := by
  unfold thomasX
  have h1 : n - 1 - i = (n - 2 - i) + 1 := by omega
  have h3 : n - 1 - (i + 1) = n - 2 - i := by omega
  rw [h1, h3, thomasXAux]
  rw [show n - 2 - (n - 2 - i) = i by omega]

/-- Forward elimination is sound: any vector `x` whose in-range rows satisfy
the dense tridiagonal system also satisfies the eliminated bidiagonal
system `bc[i]*x[i] + c[i]*x[i+1] = dc[i]`. -/
lemma eliminated_of_solves (a b c d x : ℕ → ℚ) (n : ℕ)
    (hpiv : ∀ i < n, thomasBC a b c i ≠ 0)
    (hsol : ∀ i < n, denseMulRow a b c n x i = d i) :
    ∀ i, i < n →
      thomasBC a b c i * x i + (if i + 1 < n then c i * x (i + 1) else 0)
        = thomasDC a b c d i := by
  intro i
  induction i with
  | zero =>
    intro hi
    have h := hsol 0 hi
    rw [denseMulRow_zero a b c n x hi] at h
    rw [show thomasBC a b c 0 = b 0 from rfl,
        show thomasDC a b c d 0 = d 0 from rfl]
    exact h
  | succ k ih =>
    intro hi
    have hk : k < n := by omega
    have ihk := ih hk
    rw [if_pos hi] at ihk
    have h := hsol (k + 1) hi
    rw [denseMulRow_succ a b c n x k hi] at h
    have hbk := hpiv k hk
    have hm : a k / thomasBC a b c k * thomasBC a b c k = a k :=
      div_mul_cancel₀ _ hbk
    rw [show thomasBC a b c (k + 1)
          = b (k + 1) - a k / thomasBC a b c k * c k from rfl,
        show thomasDC a b c d (k + 1)
          = d (k + 1) - a k / thomasBC a b c k * thomasDC a b c d k from rfl]
    linear_combination h - (a k / thomasBC a b c k) * ihk + x k * hm

/-- Back substitution is unique: any solution of the dense system agrees,
on the in-range indices, with the Thomas output. -/
lemma solves_eq_thomasX (a b c d x : ℕ → ℚ) (n : ℕ)
    (hpiv : ∀ i < n, thomasBC a b c i ≠ 0)
    (hsol : ∀ i < n, denseMulRow a b c n x i = d i) :
    ∀ i < n, x i = thomasX n a b c d i := by
  have helim := eliminated_of_solves a b c d x n hpiv hsol
  have key : ∀ k, k < n → x (n - 1 - k) = thomasX n a b c d (n - 1 - k) := by
    intro k
    induction k with
    | zero =>
      intro hk
      have h := helim (n - 1) (by omega)
      rw [if_neg (by omega)] at h
      rw [Nat.sub_zero, thomasX_last]
      have hb := hpiv (n - 1) (by omega)
      field_simp
      linear_combination h
    | succ k ih =>
      intro hk
      have hik := ih (by omega)
      have hin : n - 1 - (k + 1) = n - 2 - k := by omega
      have hi1 : n - 2 - k + 1 = n - 1 - k := by omega
      have hi1n : n - 2 - k + 1 < n := by omega
      have h := helim (n - 2 - k) (by omega)
      rw [if_pos hi1n] at h
      rw [hi1] at h
      rw [hin, thomasX_rec n a b c d (n - 2 - k) hi1n, hi1]
      have hb := hpiv (n - 2 - k) (by omega)
      field_simp
      linear_combination h - c (n - 2 - k) * hik
  intro i hi
  have h := key (n - 1 - i) (by omega)
  rwa [show n - 1 - (n - 1 - i) = i by omega] at h

/-- The Thomas output satisfies the eliminated bidiagonal system. -/
lemma thomasX_eliminated (a b c d : ℕ → ℚ) (n : ℕ)
    (hpiv : ∀ i < n, thomasBC a b c i ≠ 0) :
    (∀ i, i + 1 < n →
        thomasBC a b c i * thomasX n a b c d i
          + c i * thomasX n a b c d (i + 1) = thomasDC a b c d i) ∧
    (0 < n →
        thomasBC a b c (n - 1) * thomasX n a b c d (n - 1)
          = thomasDC a b c d (n - 1)) := by
  constructor
  · intro i hi
    have hb := hpiv i (by omega)
    rw [thomasX_rec n a b c d i hi]
    field_simp
  · intro hn
    have hb := hpiv (n - 1) (by omega)
    rw [thomasX_last]
    field_simp

/-- The Thomas output solves the dense tridiagonal system (existence). -/
lemma thomasX_solves (a b c d : ℕ → ℚ) (n : ℕ)
    (hpiv : ∀ i < n, thomasBC a b c i ≠ 0) :
    ∀ i < n, denseMulRow a b c n (thomasX n a b c d) i = d i := by
  have hE := thomasX_eliminated a b c d n hpiv
  intro i hi
  cases i with
  | zero =>
    rw [denseMulRow_zero a b c n _ hi]
    by_cases h1 : 1 < n
    · rw [if_pos h1]
      have h := hE.1 0 h1
      rw [show thomasBC a b c 0 = b 0 from rfl,
          show thomasDC a b c d 0 = d 0 from rfl] at h
      exact h
    · rw [if_neg h1]
      have h := hE.2 hi
      rw [show n - 1 = 0 by omega, show thomasBC a b c 0 = b 0 from rfl,
          show thomasDC a b c d 0 = d 0 from rfl] at h
      linear_combination h
  | succ k =>
    have hm : a k / thomasBC a b c k * thomasBC a b c k = a k :=
      div_mul_cancel₀ _ (hpiv k (by omega))
    have hE0 := hE.1 k hi
    rw [denseMulRow_succ a b c n _ k hi]
    by_cases h2 : k + 2 < n
    · rw [if_pos h2]
      have hE1 := hE.1 (k + 1) h2
      rw [show thomasBC a b c (k + 1)
            = b (k + 1) - a k / thomasBC a b c k * c k from rfl,
          show thomasDC a b c d (k + 1)
            = d (k + 1) - a k / thomasBC a b c k * thomasDC a b c d k
            from rfl] at hE1
      linear_combination hE1 + (a k / thomasBC a b c k) * hE0
        - thomasX n a b c d k * hm
    · rw [if_neg h2]
      have hE1 := hE.2 (by omega)
      rw [show n - 1 = k + 1 by omega] at hE1
      rw [show thomasBC a b c (k + 1)
            = b (k + 1) - a k / thomasBC a b c k * c k from rfl,
          show thomasDC a b c d (k + 1)
            = d (k + 1) - a k / thomasBC a b c k * thomasDC a b c d k
            from rfl] at hE1
      linear_combination hE1 + (a k / thomasBC a b c k) * hE0
        - thomasX n a b c d k * hm

/-- C1: for every batch of tridiagonal systems whose Thomas pivots are all
nonzero, the batched Thomas solver returned by `get_batched_tridiag_solver`
returns, for every spatial row, exactly the solution of the dense per-row
system assembled and solved by the solver returned by `get_naive_solver`:
the Thomas output solves every in-range row of the dense system, and any
return value admissible for the naive dense solver agrees with it entrywise
on the in-range indices. -/
theorem claim1_batched_matches_naive (nx nv : ℕ) (a b c f : ℕ → ℕ → ℚ)
    (hpiv : ∀ ix < nx, ∀ i < nv, thomasBC (a ix) (b ix) (c ix) i ≠ 0) :
    naiveSolverReturns nx nv a b c f (batchedTridiagSolver nv a b c f) ∧
    ∀ g, naiveSolverReturns nx nv a b c f g →
      ∀ ix < nx, ∀ j < nv,
        g ix j = batchedTridiagSolver nv a b c f ix j := by
  constructor
  · intro ix hx i hi
    exact thomasX_solves (a ix) (b ix) (c ix) (f ix) nv (hpiv ix hx) i hi
  · intro g hg ix hx j hj
    exact solves_eq_thomasX (a ix) (b ix) (c ix) (f ix) (g ix) nv
      (hpiv ix hx) (hg ix hx) j hj

/-- Witness for C1 on the concrete batch `nx = 1`, `nv = 2`,
`a = (1)`, `b = (2, 2)`, `c = (1)`, `f = (1, 1)`, whose Thomas pivots are
`2` and `3/2`. -/
theorem claim1_batched_matches_naive_witness :
    (∀ ix < 1, ∀ i < 2,
      thomasBC (fun _ => (1 : ℚ)) (fun _ => 2) (fun _ => 1) i ≠ 0) ∧
    (naiveSolverReturns 1 2 (fun _ _ => 1) (fun _ _ => 2) (fun _ _ => 1)
        (fun _ _ => 1)
        (batchedTridiagSolver 2 (fun _ _ => 1) (fun _ _ => 2) (fun _ _ => 1)
          (fun _ _ => 1)) ∧
    ∀ g, naiveSolverReturns 1 2 (fun _ _ => 1) (fun _ _ => 2) (fun _ _ => 1)
        (fun _ _ => 1) g →
      ∀ ix < 1, ∀ j < 2,
        g ix j = batchedTridiagSolver 2 (fun _ _ => 1) (fun _ _ => 2)
          (fun _ _ => 1) (fun _ _ => 1) ix j) := by
  have hp : ∀ ix < 1, ∀ i < 2,
      thomasBC (fun _ => (1 : ℚ)) (fun _ => 2) (fun _ => 1) i ≠ 0 := by
    intro ix _ i hi
    interval_cases i <;> norm_num [thomasBC]
  exact ⟨hp, claim1_batched_matches_naive 1 2 (fun _ _ => 1) (fun _ _ => 2)
    (fun _ _ => 1) (fun _ _ => 1) hp⟩

/-! ## Claim C5: copy-on-entry semantics of the batched solver

To state that `_batched_tridiag_solver_` does not mutate its caller's
arrays, the function is embedded a second time, operating on a mutable
store of 2D arrays: an array value is a list of rows (`List (List ℚ)`),
the store is a list of array values, and an address is an index into the
store.  `a.copy()` becomes an allocation of a fresh address holding the
same value; every in-place column assignment of the source becomes a store
write at the address the source statement targets (in particular `xc = bc`
is address aliasing, not a copy, so the back-substitution writes land on
the `bc` copy).  The claim is then that the addresses passed in by the
caller still hold their original arrays when the solver returns. -/

/-- A 2D numpy array value: a list of rows. -/
abbrev NdArray : Type := List (List ℚ)

/-- A mutable store of array values; addresses are indices. -/
structure Store where
  arrs : List NdArray

/-- Read the array value at address `p`. -/
def storeRead (m : Store) (p : ℕ) : NdArray := m.arrs.getD p []

/-- Overwrite the array value at address `p`. -/
def storeWrite (m : Store) (p : ℕ) (v : NdArray) : Store := ⟨m.arrs.set p v⟩

/-- Allocate a fresh address holding `v` (used for `.copy()`). -/
def storeAlloc (m : Store) (v : NdArray) : ℕ × Store :=
  (m.arrs.length, ⟨m.arrs ++ [v]⟩)

/-- Column `j` of a 2D array, one entry per row (`arr[:, j]`). -/
def colGet (arr : NdArray) (j : ℕ) : List ℚ := arr.map fun r => r.getD j 0

/-- Write `vals` into column `j`, row by row (`arr[:, j] = vals`). -/
def colSet (arr : NdArray) (j : ℕ) (vals : List ℚ) : NdArray :=
  (arr.zip vals).map fun rv => rv.1.set j rv.2

/-- One iteration of the forward-elimination loop `for it in range(1, nv)`:
`mc = ac[:, it-1] / bc[:, it-1]`, then
`bc[:, it] = bc[:, it] - mc * cc[:, it-1]`, then
`dc[:, it] = dc[:, it] - mc * dc[:, it-1]`. -/
def forwardStep (pac pbc pcc pdc : ℕ) (m : Store) (it : ℕ) : Store :=
  let mc := List.zipWith (· / ·) (colGet (storeRead m pac) (it - 1))
    (colGet (storeRead m pbc) (it - 1))
  let m1 := storeWrite m pbc (colSet (storeRead m pbc) it
    (List.zipWith (· - ·) (colGet (storeRead m pbc) it)
      (List.zipWith (· * ·) mc (colGet (storeRead m pcc) (it - 1)))))
  storeWrite m1 pdc (colSet (storeRead m1 pdc) it
    (List.zipWith (· - ·) (colGet (storeRead m1 pdc) it)
      (List.zipWith (· * ·) mc (colGet (storeRead m1 pdc) (it - 1)))))

/-- One iteration of the back-substitution loop
`for il in range(nv-2, -1, -1)`:
`xc[:, il] = (dc[:, il] - cc[:, il] * xc[:, il+1]) / bc[:, il]`,
where `pxc` is the address `xc` aliases (`pbc` at the call site). -/
def backStep (pbc pcc pdc pxc : ℕ) (m : Store) (il : ℕ) : Store :=
  storeWrite m pxc (colSet (storeRead m pxc) il
    (List.zipWith (· / ·)
      (List.zipWith (· - ·) (colGet (storeRead m pdc) il)
        (List.zipWith (· * ·) (colGet (storeRead m pcc) il)
          (colGet (storeRead m pxc) (il + 1))))
      (colGet (storeRead m pbc) il)))

/-- `_batched_tridiag_solver_` on the store: copy the four inputs, run the
forward loop on the copies, alias `xc = bc`, write the last column of `xc`,
run the back-substitution loop, and return the address of `xc`. -/
def batchedTridiagSolverStore (nv : ℕ) (m : Store) (pa pb pc pf : ℕ) :
    ℕ × Store :=
  let r1 := storeAlloc m (storeRead m pa)
  let r2 := storeAlloc r1.2 (storeRead r1.2 pb)
  let r3 := storeAlloc r2.2 (storeRead r2.2 pc)
  let r4 := storeAlloc r3.2 (storeRead r3.2 pf)
  let pac := r1.1
  let pbc := r2.1
  let pcc := r3.1
  let pdc := r4.1
  let m5 := (List.range' 1 (nv - 1)).foldl (forwardStep pac pbc pcc pdc) r4.2
  let pxc := pbc
  let m6 := storeWrite m5 pxc (colSet (storeRead m5 pxc) (nv - 1)
    (List.zipWith (· / ·) (colGet (storeRead m5 pdc) (nv - 1))
      (colGet (storeRead m5 pbc) (nv - 1))))
  let m7 := ((List.range (nv - 1)).reverse).foldl (backStep pbc pcc pdc pxc) m6
  (pxc, m7)

lemma storeRead_write_ne (m : Store) (p q : ℕ) (v : NdArray) (h : q ≠ p) :
    storeRead (storeWrite m p v) q = storeRead m q := by
  unfold storeRead storeWrite
  rcases Nat.lt_or_ge q m.arrs.length with hq | hq
  · rw [List.getD_eq_getElem?_getD, List.getD_eq_getElem?_getD,
      List.getElem?_set_ne (fun hpq => h hpq.symm)]
  · rw [List.getD_eq_default _ _ (by simpa using hq),
      List.getD_eq_default _ _ hq]

lemma storeRead_append_lt (arrs : List NdArray) (v : NdArray) (q : ℕ)
    (hq : q < arrs.length) :
    (Store.mk (arrs ++ [v])).arrs.getD q [] = arrs.getD q [] := by
  simp only [List.getD_eq_getElem?_getD, List.getElem?_append, hq, if_pos]

lemma forwardStep_read_ne (pac pbc pcc pdc : ℕ) (m : Store) (it : ℕ) (q : ℕ)
    (hb : q ≠ pbc) (hd : q ≠ pdc) :
    storeRead (forwardStep pac pbc pcc pdc m it) q = storeRead m q := by
  unfold forwardStep
  rw [storeRead_write_ne _ _ _ _ hd, storeRead_write_ne _ _ _ _ hb]

lemma forward_foldl_read_ne (pac pbc pcc pdc : ℕ) (l : List ℕ) (m : Store)
    (q : ℕ) (hb : q ≠ pbc) (hd : q ≠ pdc) :
    storeRead (l.foldl (forwardStep pac pbc pcc pdc) m) q = storeRead m q := by
  induction l generalizing m with
  | nil => rfl
  | cons it l ih =>
    rw [List.foldl_cons, ih, forwardStep_read_ne _ _ _ _ _ _ _ hb hd]

lemma backStep_read_ne (pbc pcc pdc pxc : ℕ) (m : Store) (il : ℕ) (q : ℕ)
    (hx : q ≠ pxc) :
    storeRead (backStep pbc pcc pdc pxc m il) q = storeRead m q := by
  unfold backStep
  rw [storeRead_write_ne _ _ _ _ hx]

lemma back_foldl_read_ne (pbc pcc pdc pxc : ℕ) (l : List ℕ) (m : Store)
    (q : ℕ) (hx : q ≠ pxc) :
    storeRead (l.foldl (backStep pbc pcc pdc pxc) m) q = storeRead m q := by
  induction l generalizing m with
  | nil => rfl
  | cons il l ih =>
    rw [List.foldl_cons, ih, backStep_read_ne _ _ _ _ _ _ _ hx]

/-- Every address that existed before the call (in particular each of the
caller's four argument addresses) holds the same array value afterwards. -/
lemma batchedTridiagSolverStore_frame (nv : ℕ) (m : Store) (pa pb pc pf : ℕ)
    (q : ℕ) (hq : q < m.arrs.length) :
    storeRead (batchedTridiagSolverStore nv m pa pb pc pf).2 q
      = storeRead m q := by
  unfold batchedTridiagSolverStore
  simp only [storeAlloc]
  have hlen : ∀ v : NdArray, ∀ arrs : List NdArray,
      (arrs ++ [v]).length = arrs.length + 1 := by simp
  rw [back_foldl_read_ne _ _ _ _ _ _ _ (by simp; omega),
      storeRead_write_ne _ _ _ _ (by simp; omega),
      forward_foldl_read_ne _ _ _ _ _ _ _ (by simp; omega) (by simp; omega)]
  show (Store.mk _).arrs.getD q [] = _
  rw [storeRead_append_lt _ _ _ (by simp; omega),
      storeRead_append_lt _ _ _ (by simp; omega),
      storeRead_append_lt _ _ _ (by simp; omega)]
  exact storeRead_append_lt m.arrs _ q hq

/-- C5: for every store and every four argument addresses valid in it, the
batched tridiagonal solver leaves all four argument arrays unchanged after
the call: it operates only on the copies it allocates on entry. -/
theorem claim5_no_input_mutation (nv : ℕ) (m : Store) (pa pb pc pf : ℕ)
    (ha : pa < m.arrs.length) (hb : pb < m.arrs.length)
    (hc : pc < m.arrs.length) (hf : pf < m.arrs.length) :
    storeRead (batchedTridiagSolverStore nv m pa pb pc pf).2 pa
        = storeRead m pa ∧
    storeRead (batchedTridiagSolverStore nv m pa pb pc pf).2 pb
        = storeRead m pb ∧
    storeRead (batchedTridiagSolverStore nv m pa pb pc pf).2 pc
        = storeRead m pc ∧
    storeRead (batchedTridiagSolverStore nv m pa pb pc pf).2 pf
        = storeRead m pf :=
  ⟨batchedTridiagSolverStore_frame nv m pa pb pc pf pa ha,
   batchedTridiagSolverStore_frame nv m pa pb pc pf pb hb,
   batchedTridiagSolverStore_frame nv m pa pb pc pf pc hc,
   batchedTridiagSolverStore_frame nv m pa pb pc pf pf hf⟩

/-- Witness for C5 on a concrete store holding four 1×2 arrays. -/
theorem claim5_no_input_mutation_witness :
    ((0 : ℕ) < (Store.mk [[[1, 2]], [[3, 4]], [[5, 6]], [[7, 8]]]).arrs.length ∧
     (1 : ℕ) < (Store.mk [[[1, 2]], [[3, 4]], [[5, 6]], [[7, 8]]]).arrs.length ∧
     (2 : ℕ) < (Store.mk [[[1, 2]], [[3, 4]], [[5, 6]], [[7, 8]]]).arrs.length ∧
     (3 : ℕ) < (Store.mk [[[1, 2]], [[3, 4]], [[5, 6]], [[7, 8]]]).arrs.length) ∧
    (storeRead (batchedTridiagSolverStore 2
        (Store.mk [[[1, 2]], [[3, 4]], [[5, 6]], [[7, 8]]]) 0 1 2 3).2 0
        = storeRead (Store.mk [[[1, 2]], [[3, 4]], [[5, 6]], [[7, 8]]]) 0 ∧
     storeRead (batchedTridiagSolverStore 2
        (Store.mk [[[1, 2]], [[3, 4]], [[5, 6]], [[7, 8]]]) 0 1 2 3).2 1
        = storeRead (Store.mk [[[1, 2]], [[3, 4]], [[5, 6]], [[7, 8]]]) 1 ∧
     storeRead (batchedTridiagSolverStore 2
        (Store.mk [[[1, 2]], [[3, 4]], [[5, 6]], [[7, 8]]]) 0 1 2 3).2 2
        = storeRead (Store.mk [[[1, 2]], [[3, 4]], [[5, 6]], [[7, 8]]]) 2 ∧
     storeRead (batchedTridiagSolverStore 2
        (Store.mk [[[1, 2]], [[3, 4]], [[5, 6]], [[7, 8]]]) 0 1 2 3).2 3
        = storeRead (Store.mk [[[1, 2]], [[3, 4]], [[5, 6]], [[7, 8]]]) 3) :=
  ⟨⟨by simp, by simp, by simp, by simp⟩,
   claim5_no_input_mutation 2 (Store.mk [[[1, 2]], [[3, 4]], [[5, 6]], [[7, 8]]])
     0 1 2 3 (by simp) (by simp) (by simp) (by simp)⟩

/-! ## Time integrators

From `src/vlapy/core/vlasov_poisson.py`.  The integrators are higher-order:
they are assembled from the chosen advection steppers, field solver and
driver function, so they are embedded generically in the types `E` of
fields and `F` of distribution functions, with `ℚ` for the exact time and
timestep arithmetic. -/

/-- `full_leapfrog_ps_step` (lines 36-58): half velocity kick, full spatial
drift, field solve with the driver evaluated at `t + dt`, half velocity
kick; returns the solved field and the final distribution. -/
def fullLeapfrogPsStep {E F : Type} (vdfdx : F → ℚ → F)
    (edfdv : F → E → ℚ → F) (fieldSolve : E → F → E) (dt : ℚ)
    (driverFunction : ℚ → E) (e : E) (f : F) (t : ℚ) : E × F :=
  let f1 := edfdv f e (0.5 * dt)
  let f2 := vdfdx f1 dt
  let e1 := fieldSolve (driverFunction (t + dt)) f2
  let f3 := edfdv f2 e1 (0.5 * dt)
  (e1, f3)

/-- `full_pefrl_ps_step` (lines 82-152): the 4th-order
Performance-Extended Forest-Ruth-Like composition. -/
def fullPefrlPsStep {E F : Type} (vdfdx : F → ℚ → F)
    (edfdv : F → E → ℚ → F) (fieldSolve : E → F → E) (dt : ℚ)
    (driverFunction : ℚ → E) (_e : E) (f : F) (t : ℚ) : E × F :=
  let xsi : ℚ := 0.1786178958448091
  let lambd : ℚ := -0.2123418310626054
  let chi : ℚ := -(0.6626458266981849e-1)
  let dt1 := xsi * dt
  let dt2 := chi * dt
  let dt3 := (1 - 2 * (chi + xsi)) * dt
  let dt4 := dt2
  let dt5 := dt1
  let vdt1 := 0.5 * (1 - 2 * lambd) * dt
  let vdt2 := lambd * dt
  let vdt3 := vdt2
  let vdt4 := vdt1
  let f1 := vdfdx f dt1
  let e1 := fieldSolve (driverFunction (t + dt1)) f1
  let f2 := edfdv f1 e1 vdt1
  let f3 := vdfdx f2 dt2
  let e2 := fieldSolve (driverFunction (t + dt1 + dt2)) f3
  let f4 := edfdv f3 e2 vdt2
  let f5 := vdfdx f4 dt3
  let e3 := fieldSolve (driverFunction (t + dt1 + dt2 + dt3)) f5
  let f6 := edfdv f5 e3 vdt3
  let f7 := vdfdx f6 dt4
  let e4 := fieldSolve (driverFunction (t + dt1 + dt2 + dt3 + dt4)) f7
  let f8 := edfdv f7 e4 vdt4
  let f9 := vdfdx f8 dt5
  let e5 := fieldSolve (driverFunction (t + dt1 + dt2 + dt3 + dt4 + dt5)) f9
  (e5, f9)

/-- `sixth_order_step` (lines 187-230): the 6th-order Hamiltonian-splitting
composition of Casas, Crouseilles, Faou and Mehrenberger. -/
def sixthOrderStep {E F : Type} (vdfdx : F → ℚ → F)
    (edfdv : F → E → ℚ → F) (fieldSolve : E → F → E) (dt : ℚ)
    (driverFunction : ℚ → E) (e : E) (f : F) (t : ℚ) : E × F :=
  let a1 : ℚ := 0.168735950563437422448196
  let a2 : ℚ := 0.377851589220928303880766
  let a3 : ℚ := -0.093175079568731452657924
  let b1 : ℚ := 0.049086460976116245491441
  let b2 : ℚ := 0.264177609888976700200146
  let b3 : ℚ := 0.186735929134907054308413
  let c1 : ℚ := -0.000069728715055305084099
  let c2 : ℚ := -0.000625704827430047189169
  let c3 : ℚ := -0.002213085124045325561636
  let d2 : ℚ := -2.916600457689847816445691e-6
  let d3 : ℚ := 3.048480261700038788680723e-5
  let e3c : ℚ := 4.985549387875068121593988e-7
  let D1 := b1 + 2 * c1 * dt ^ 2
  let D2 := b2 + 2 * c2 * dt ^ 2 + 4 * d2 * dt ^ 4
  let D3 := b3 + 2 * c3 * dt ^ 2 + 4 * d3 * dt ^ 4 - 8 * e3c * dt ^ 6
  let f1 := edfdv f e (D1 * dt)
  let f2 := vdfdx f1 (a1 * dt)
  let e1 := fieldSolve (driverFunction (t + a1 * dt)) f2
  let f3 := edfdv f2 e1 (D2 * dt)
  let f4 := vdfdx f3 (a2 * dt)
  let e2 := fieldSolve (driverFunction (t + a2 * dt)) f4
  let f5 := edfdv f4 e2 (D3 * dt)
  let f6 := vdfdx f5 (a3 * dt)
  let e3 := fieldSolve (driverFunction (t + a3 * dt)) f6
  let f7 := edfdv f6 e3 (D3 * dt)
  let f8 := vdfdx f7 (a2 * dt)
  let e4 := fieldSolve (driverFunction (t + a2 * dt)) f8
  let f9 := edfdv f8 e4 (D2 * dt)
  let f10 := vdfdx f9 (a1 * dt)
  let e5 := fieldSolve (driverFunction (t + a1 * dt)) f10
  let f11 := edfdv f10 e5 (D1 * dt)
  (e5, f11)

/-- C2: one call of the leapfrog step returns exactly the pair produced by
the sequence: velocity advection of `f` by `e` for `dt/2`, spatial
advection for the full `dt`, one field solve whose driver term is
evaluated at `t + dt`, and a final velocity advection by the newly solved
field for `dt/2`; the returned field is the one solved at `t + dt`. -/
theorem claim2_leapfrog_sequence {E F : Type} (vdfdx : F → ℚ → F)
    (edfdv : F → E → ℚ → F) (fieldSolve : E → F → E) (dt : ℚ)
    (driverFunction : ℚ → E) (e : E) (f : F) (t : ℚ) :
    fullLeapfrogPsStep vdfdx edfdv fieldSolve dt driverFunction e f t
      = (fieldSolve (driverFunction (t + dt)) (vdfdx (edfdv f e (dt / 2)) dt),
         edfdv (vdfdx (edfdv f e (dt / 2)) dt)
           (fieldSolve (driverFunction (t + dt))
             (vdfdx (edfdv f e (dt / 2)) dt))
           (dt / 2)) := by
  have h : (0.5 : ℚ) * dt = dt / 2 := by ring
  unfold fullLeapfrogPsStep
  rw [h]

/-! ## Configuration dispatch

Setup-time selection of the numerical methods.  Each `get_*` factory of the
source either returns the selected component or raises
`NotImplementedError`; raising is embedded as `none`.

* `get_matrix_solver` (collisions.py lines 259-268) accepts `naive` and
  `batched_tridiagonal`.  The naive branch calls the external dense routine
  `np.linalg.solve`, so the dispatched solver is embedded as its
  input-output relation; the batched branch's relation is the graph of
  `batchedTridiagSolver`.
* `get_batched_array_maker` (collisions.py lines 271-280) accepts `lb` and
  `dg` and returns the corresponding coefficient builder.
* `get_time_integrator` (vlasov_poisson.py lines 235-280) accepts
  `leapfrog`, `pefrl` and `h-sixth` and returns the assembled step.
* `get_vdfdx` / `get_edfdv` (vlasov.py lines 213-260) and
  `get_field_solver` (field.py lines 91-107) accept the names below; the
  dispatched method itself is embedded as a tag, since this claim is only
  about acceptance versus rejection at setup time. -/

/-- Input-output relation of the naive dense solver branch. -/
def naiveSolverRel (nx nv : ℕ) (a b c f g : ℕ → ℕ → ℚ) : Prop :=
  naiveSolverReturns nx nv a b c f g

/-- Input-output relation (graph) of the batched Thomas solver branch. -/
def batchedSolverRel (nx nv : ℕ) (a b c f g : ℕ → ℕ → ℚ) : Prop :=
  ∀ ix < nx, ∀ j < nv, g ix j = batchedTridiagSolver nv a b c f ix j

/-- `get_matrix_solver(nx, nv, solver_name)`. -/
def getMatrixSolver (nx nv : ℕ) (solverName : String) :
    Option ((ℕ → ℕ → ℚ) → (ℕ → ℕ → ℚ) → (ℕ → ℕ → ℚ) → (ℕ → ℕ → ℚ)
      → (ℕ → ℕ → ℚ) → Prop) :=
  if solverName = "naive" then some (naiveSolverRel nx nv)
  else if solverName = "batched_tridiagonal" then some (batchedSolverRel nx nv)
  else none

/-- `get_batched_array_maker(vax, nv, nx, nu, dt, dv, operator)`: returns
the selected coefficient builder `f ↦ (a, b, c)`. -/
def getBatchedArrayMaker (vax : ℕ → ℚ) (nv _nx : ℕ) (nu dt dv : ℚ)
    (operator : String) :
    Option ((ℕ → ℕ → ℚ) →
      ((ℕ → ℕ → ℚ) × (ℕ → ℕ → ℚ) × (ℕ → ℕ → ℚ))) :=
  if operator = "lb" then
    some fun f => (makePhilharmonicA vax nv nu dt dv f,
      makePhilharmonicB vax nv nu dt dv f, makePhilharmonicC vax nv nu dt dv f)
  else if operator = "dg" then
    some fun f => (makeDoughertyA vax nv nu dt dv f,
      makeDoughertyB vax nv nu dt dv f, makeDoughertyC vax nv nu dt dv f)
  else none

/-- `get_time_integrator(time_integrator_name, …)`. -/
def getTimeIntegrator {E F : Type} (name : String) (vdfdx : F → ℚ → F)
    (edfdv : F → E → ℚ → F) (fieldSolve : E → F → E) (dt : ℚ)
    (driverFunction : ℚ → E) : Option (E → F → ℚ → E × F) :=
  if name = "leapfrog" then
    some (fullLeapfrogPsStep vdfdx edfdv fieldSolve dt driverFunction)
  else if name = "pefrl" then
    some (fullPefrlPsStep vdfdx edfdv fieldSolve dt driverFunction)
  else if name = "h-sixth" then
    some (sixthOrderStep vdfdx edfdv fieldSolve dt driverFunction)
  else none

/-- Tag for the spatial-advection method selected by `get_vdfdx`. -/
inductive VdfdxMethod : Type
  | exponential : VdfdxMethod
  | sl : VdfdxMethod

/-- `get_vdfdx(…, vdfdx_implementation)`, selection logic only. -/
def getVdfdx (name : String) : Option VdfdxMethod :=
  if name = "exponential" then some VdfdxMethod.exponential
  else if name = "sl" then some VdfdxMethod.sl
  else none

/-- Tag for the velocity-advection method selected by `get_edfdv`. -/
inductive EdfdvMethod : Type
  | exponential : EdfdvMethod
  | cd2 : EdfdvMethod
  | sl : EdfdvMethod

/-- `get_edfdv(…, edfdv_implementation)`, selection logic only. -/
def getEdfdv (name : String) : Option EdfdvMethod :=
  if name = "exponential" then some EdfdvMethod.exponential
  else if name = "cd2" then some EdfdvMethod.cd2
  else if name = "sl" then some EdfdvMethod.sl
  else none

/-- Tag for the field solver selected by `get_field_solver`. -/
inductive FieldSolverMethod : Type
  | spectral : FieldSolverMethod

/-- `get_field_solver(…, field_solver_implementation)`, selection logic. -/
def getFieldSolver (name : String) : Option FieldSolverMethod :=
  if name = "spectral" then some FieldSolverMethod.spectral else none

/-- C7 is false as stated: the collision-operator name `none`, although
listed in the claim's configuration enumeration `{lb, dg, none}`, is not
accepted by `get_batched_array_maker`; it falls through to the
`raise NotImplementedError` branch. -/
theorem claim7_counterexample :
    getBatchedArrayMaker (fun j => (j : ℚ)) 4 2 1 1 1 "none" = none := by
  rfl

lemma thomasBC_identity (i : ℕ) :
    thomasBC (fun _ => 0) (fun _ => 1) (fun _ => 0) i = 1 := by
  induction i with
  | zero => rfl
  | succ k ih =>
    show (1 : ℚ) - 0 / thomasBC (fun _ => 0) (fun _ => 1) (fun _ => 0) k * 0
      = 1
    ring

/-- With zero sub/super diagonals and unit diagonal, the Thomas solve is
the identity on the in-range entries. -/
lemma thomasX_identity (nv : ℕ) (d : ℕ → ℚ) :
    ∀ j < nv, thomasX nv (fun _ => 0) (fun _ => 1) (fun _ => 0) d j = d j := by
  intro j hj
  have h := solves_eq_thomasX (fun _ => 0) (fun _ => 1) (fun _ => 0) d d nv
    (fun i _ => by rw [thomasBC_identity i]; norm_num)
    (fun i hi => by
      cases i with
      | zero =>
        rw [denseMulRow_zero _ _ _ _ _ hi]
        simp
      | succ k =>
        rw [denseMulRow_succ _ _ _ _ _ _ hi]
        simp)
    j hj
  exact h.symm

/-- C7 (amended): at setup time the accepted collision-operator names are
exactly `{lb, dg}` — the name `none` is rejected with the same fatal
`NotImplementedError` as any other unrecognized name — and the accepted
linear-solver, time-integrator, advection and field-solver names are
exactly `{naive, batched_tridiagonal}`, `{leapfrog, pefrl, h-sixth}`,
`{exponential, sl}`, `{exponential, cd2, sl}` and `{spectral}`.  With
collision frequency `nu = 0` both accepted coefficient builders produce
the identity tridiagonal system (`a = 0`, `b = 1`, `c = 0`), whose Thomas
solve returns the distribution unchanged, so the assembled collision step
is the identity map. -/
theorem claim7_amended_dispatch :
    (∀ (vax : ℕ → ℚ) (nv nx : ℕ) (nu dt dv : ℚ),
      getBatchedArrayMaker vax nv nx nu dt dv "lb" ≠ none ∧
      getBatchedArrayMaker vax nv nx nu dt dv "dg" ≠ none ∧
      getBatchedArrayMaker vax nv nx nu dt dv "none" = none ∧
      ∀ s, s ≠ "lb" → s ≠ "dg" →
        getBatchedArrayMaker vax nv nx nu dt dv s = none) ∧
    (∀ nx nv : ℕ,
      getMatrixSolver nx nv "naive" ≠ none ∧
      getMatrixSolver nx nv "batched_tridiagonal" ≠ none ∧
      ∀ s, s ≠ "naive" → s ≠ "batched_tridiagonal" →
        getMatrixSolver nx nv s = none) ∧
    (∀ (E F : Type) (vdfdx : F → ℚ → F) (edfdv : F → E → ℚ → F)
        (fieldSolve : E → F → E) (dt : ℚ) (driverFunction : ℚ → E),
      getTimeIntegrator "leapfrog" vdfdx edfdv fieldSolve dt driverFunction
          ≠ none ∧
      getTimeIntegrator "pefrl" vdfdx edfdv fieldSolve dt driverFunction
          ≠ none ∧
      getTimeIntegrator "h-sixth" vdfdx edfdv fieldSolve dt driverFunction
          ≠ none ∧
      ∀ s, s ≠ "leapfrog" → s ≠ "pefrl" → s ≠ "h-sixth" →
        getTimeIntegrator s vdfdx edfdv fieldSolve dt driverFunction
          = none) ∧
    (getVdfdx "exponential" ≠ none ∧ getVdfdx "sl" ≠ none ∧
      ∀ s, s ≠ "exponential" → s ≠ "sl" → getVdfdx s = none) ∧
    (getEdfdv "exponential" ≠ none ∧ getEdfdv "cd2" ≠ none ∧
      getEdfdv "sl" ≠ none ∧
      ∀ s, s ≠ "exponential" → s ≠ "cd2" → s ≠ "sl" → getEdfdv s = none) ∧
    (getFieldSolver "spectral" ≠ none ∧
      ∀ s, s ≠ "spectral" → getFieldSolver s = none) ∧
    (∀ (vax : ℕ → ℚ) (nv : ℕ) (dt dv : ℚ) (f : ℕ → ℕ → ℚ) (ix j : ℕ),
      makePhilharmonicA vax nv 0 dt dv f ix j = 0 ∧
      makePhilharmonicB vax nv 0 dt dv f ix j = 1 ∧
      makePhilharmonicC vax nv 0 dt dv f ix j = 0 ∧
      makeDoughertyA vax nv 0 dt dv f ix j = 0 ∧
      makeDoughertyB vax nv 0 dt dv f ix j = 1 ∧
      makeDoughertyC vax nv 0 dt dv f ix j = 0) ∧
    (∀ (nv : ℕ) (d : ℕ → ℚ), ∀ j < nv,
      thomasX nv (fun _ => 0) (fun _ => 1) (fun _ => 0) d j = d j) := by
  refine ⟨?_, ?_, ?_, ?_, ?_, ?_, ?_, ?_⟩
  · intro vax nv nx nu dt dv
    refine ⟨by simp [getBatchedArrayMaker], by simp [getBatchedArrayMaker],
      by simp [getBatchedArrayMaker], ?_⟩
    intro s h1 h2
    simp [getBatchedArrayMaker, h1, h2]
  · intro nx nv
    refine ⟨by simp [getMatrixSolver], by simp [getMatrixSolver], ?_⟩
    intro s h1 h2
    simp [getMatrixSolver, h1, h2]
  · intro E F vdfdx edfdv fieldSolve dt driverFunction
    refine ⟨by simp [getTimeIntegrator], by simp [getTimeIntegrator],
      by simp [getTimeIntegrator], ?_⟩
    intro s h1 h2 h3
    simp [getTimeIntegrator, h1, h2, h3]
  · refine ⟨by simp [getVdfdx], by simp [getVdfdx], ?_⟩
    intro s h1 h2
    simp [getVdfdx, h1, h2]
  · refine ⟨by simp [getEdfdv], by simp [getEdfdv], by simp [getEdfdv], ?_⟩
    intro s h1 h2 h3
    simp [getEdfdv, h1, h2, h3]
  · refine ⟨by simp [getFieldSolver], ?_⟩
    intro s h1
    simp [getFieldSolver, h1]
  · intro vax nv dt dv f ix j
    refine ⟨?_, ?_, ?_, ?_, ?_, ?_⟩ <;>
      simp [makePhilharmonicA, makePhilharmonicB, makePhilharmonicC,
        makeDoughertyA, makeDoughertyB, makeDoughertyC]
  · exact fun nv d => thomasX_identity nv d

/-- Witness for C7 (amended): the unrecognized name `lw5` is rejected by
the collision-operator dispatch, and a concrete 2-point Thomas solve of the
identity system returns its right-hand side. -/
theorem claim7_amended_dispatch_witness :
    (("lw5" : String) ≠ "lb" ∧ ("lw5" : String) ≠ "dg" ∧ (0 : ℕ) < 2) ∧
    (getBatchedArrayMaker (fun j => (j : ℚ)) 4 2 1 1 1 "lw5" = none ∧
      thomasX 2 (fun _ => 0) (fun _ => 1) (fun _ => 0) (fun j => (j : ℚ)) 0
        = 0) :=
  ⟨⟨by decide, by decide, by decide⟩,
   ⟨(claim7_amended_dispatch.1 (fun j => (j : ℚ)) 4 2 1 1 1).2.2.2 "lw5"
      (by decide) (by decide),
    claim7_amended_dispatch.2.2.2.2.2.2.2 2 (fun j => (j : ℚ)) 0 (by decide)⟩⟩

/-! ## Discrete Fourier transforms

`scipy.fft.fft` / `scipy.fft.ifft` (equivalently `np.fft`) in the default
normalization: the forward transform is unscaled, the inverse carries the
`1/n` factor, and frequencies follow the standard DFT ordering. -/

/-- Unscaled forward DFT: `fft g k = Σ_{j<n} g j · exp(-2πi·j·k/n)`. -/
noncomputable def fft (n : ℕ) (g : ℕ → ℂ) (k : ℕ) : ℂ :=
  ∑ j ∈ Finset.range n,
    g j * Complex.exp (-(2 * Real.pi * Complex.I * j * k / n))

/-- Inverse DFT: `ifft G j = (Σ_{k<n} G k · exp(2πi·j·k/n)) / n`. -/
noncomputable def ifft (n : ℕ) (G : ℕ → ℂ) (j : ℕ) : ℂ :=
  (∑ k ∈ Finset.range n,
    G k * Complex.exp (2 * Real.pi * Complex.I * j * k / n)) / n

/-- The nontrivial character sums to zero: for `0 < k < n`,
`Σ_{j<n} exp(2πi·j·k/n) = 0`. -/
lemma sum_exp_unit_root (n k : ℕ) (hk : 0 < k) (hkn : k < n) :
    ∑ j ∈ Finset.range n,
      Complex.exp (2 * Real.pi * Complex.I * j * k / n) = 0 := by
  have hn : 0 < n := lt_trans hk hkn
  have hn0 : (n : ℂ) ≠ 0 := Nat.cast_ne_zero.mpr (by omega)
  set z : ℂ := Complex.exp (2 * Real.pi * Complex.I * k / n) with hz
  have hexp : ∀ j : ℕ,
      Complex.exp (2 * Real.pi * Complex.I * j * k / n) = z ^ j := by
    intro j
    rw [hz, ← Complex.exp_nat_mul]
    congr 1
    ring
  have hzn : z ^ n = 1 := by
    rw [hz, ← Complex.exp_nat_mul,
      show (n : ℂ) * (2 * Real.pi * Complex.I * k / n)
        = (k : ℤ) * (2 * Real.pi * Complex.I) by push_cast; field_simp; ring]
    exact Complex.exp_int_mul_two_pi_mul_I k
  have hz1 : z ≠ 1 := by
    intro h
    rw [hz, Complex.exp_eq_one_iff] at h
    obtain ⟨m, hm⟩ := h
    have hpre : (2 * (Real.pi : ℂ) * Complex.I) * (k : ℂ)
        = (2 * (Real.pi : ℂ) * Complex.I) * ((m : ℂ) * n) := by
      have hpi : (Real.pi : ℂ) ≠ 0 := by
        exact_mod_cast Real.pi_ne_zero
      field_simp at hm
      linear_combination hm
    have hcan : (k : ℂ) = (m : ℂ) * n := by
      have h2 : (2 * (Real.pi : ℂ) * Complex.I) ≠ 0 := by
        have hpi : (Real.pi : ℂ) ≠ 0 := by
          exact_mod_cast Real.pi_ne_zero
        simp [Complex.I_ne_zero, hpi]
      exact mul_left_cancel₀ h2 hpre
    have hint : (k : ℤ) = m * (n : ℤ) := by exact_mod_cast hcan
    have hn' : (0 : ℤ) < (n : ℤ) := by exact_mod_cast hn
    have hk' : (0 : ℤ) < (k : ℤ) := by exact_mod_cast hk
    have hkn' : (k : ℤ) < (n : ℤ) := by exact_mod_cast hkn
    rcases lt_trichotomy m 0 with hm' | hm' | hm'
    · nlinarith
    · rw [hm'] at hint
      simp at hint
      omega
    · nlinarith
  rw [Finset.sum_congr rfl fun j _ => hexp j, geom_sum_eq hz1, hzn]
  norm_num

/-- The spatial mean of an inverse DFT is its zero mode:
`Σ_{j<n} ifft G j = G 0`. -/
lemma sum_ifft (n : ℕ) (hn : 0 < n) (G : ℕ → ℂ) :
    ∑ j ∈ Finset.range n, ifft n G j = G 0 := by
  unfold ifft
  rw [← Finset.sum_div, Finset.sum_comm]
  have h1 : ∀ k ∈ Finset.range n,
      (∑ j ∈ Finset.range n,
        G k * Complex.exp (2 * Real.pi * Complex.I * j * k / n))
      = if k = 0 then (n : ℂ) * G 0 else 0 := by
    intro k hk
    by_cases hk0 : k = 0
    · subst hk0
      rw [if_pos rfl]
      have : ∀ j ∈ Finset.range n,
          G 0 * Complex.exp (2 * Real.pi * Complex.I * j * (0 : ℕ) / n)
          = G 0 := by
        intro j _
        norm_num
      rw [Finset.sum_congr rfl this, Finset.sum_const, Finset.card_range,
        nsmul_eq_mul]
    · rw [if_neg hk0, ← Finset.mul_sum,
        sum_exp_unit_root n k (by omega) (Finset.mem_range.mp hk), mul_zero]
  rw [Finset.sum_congr rfl h1, Finset.sum_ite_eq',
    if_pos (Finset.mem_range.mpr hn)]
  exact mul_div_cancel_left₀ _ (Nat.cast_ne_zero.mpr (by omega))

/-- Multiplying the spectrum by a phase profile with unit zero mode
preserves the sum of the signal. -/
lemma sum_ifft_phase_mul (n : ℕ) (hn : 0 < n) (M : ℕ → ℂ) (hM : M 0 = 1)
    (g : ℕ → ℂ) :
    ∑ j ∈ Finset.range n, ifft n (fun k => M k * fft n g k) j
      = ∑ j ∈ Finset.range n, g j := by
  rw [sum_ifft n hn, hM, one_mul]
  unfold fft
  apply Finset.sum_congr rfl
  intro j _
  norm_num

/-! ## Grids, wavenumber axes and the spectral machinery

From `src/vlapy/initializers.py` (`initialize_spatial_quantities`,
`initialize_velocity_quantities`), `src/vlapy/core/field.py` and
`src/vlapy/core/vlasov.py`. -/

/-- `np.fft.fftfreq(n, d)` at index `j`: frequency ordering
`[0, 1, …, (n-1)//2, -(n//2), …, -1] / (n*d)`. -/
noncomputable def fftfreq (n : ℕ) (d : ℝ) (j : ℕ) : ℝ :=
  if j ≤ (n - 1) / 2 then (j : ℝ) / (n * d) else ((j : ℝ) - n) / (n * d)

/-- Spatial wavenumber axis `kx = np.fft.fftfreq(nx, dx) * 2π`. -/
noncomputable def kxAxis (nx : ℕ) (dx : ℝ) (j : ℕ) : ℝ := fftfreq nx dx j * (2 * Real.pi)

/-- Velocity wavenumber axis `kv = np.fft.fftfreq(nv, dv) * 2π`. -/
noncomputable def kvAxis (nv : ℕ) (dv : ℝ) (j : ℕ) : ℝ := fftfreq nv dv j * (2 * Real.pi)

/-- `one_over_kx`: zero at the zero-frequency index, `1/kx` elsewhere
(`one_over_kx = np.zeros_like(kx); one_over_kx[1:] = 1.0 / kx[1:]`). -/
noncomputable def oneOverKx (nx : ℕ) (dx : ℝ) (j : ℕ) : ℝ :=
  if j = 0 then 0 else 1 / kxAxis nx dx j

/-- `step_vdfdx_exponential` (vlasov.py lines 94-108): transform along the
space axis, multiply the `(k, j)` entry by `exp(-i·kx[k]·dt·v[j])`,
inverse-transform, take the real part. -/
noncomputable def stepVdfdxExponential (nx : ℕ) (kx : ℕ → ℝ) (v : ℕ → ℝ)
    (f : ℕ → ℕ → ℝ) (dt : ℝ) (ix j : ℕ) : ℝ :=
  (ifft nx (fun k => Complex.exp (-(Complex.I * kx k * dt * v j))
    * fft nx (fun l => (f l j : ℂ)) k) ix).re

/-- `step_edfdv_exponential` (vlasov.py lines 123-138): transform along the
velocity axis, multiply the `(ix, k)` entry by `exp(-i·kv[k]·dt·e[ix])`,
inverse-transform, take the real part. -/
noncomputable def stepEdfdvExponential (nv : ℕ) (kv : ℕ → ℝ)
    (f : ℕ → ℕ → ℝ) (e : ℕ → ℝ) (dt : ℝ) (ix j : ℕ) : ℝ :=
  (ifft nv (fun k => Complex.exp (-(Complex.I * kv k * dt * e ix))
    * fft nv (fun l => (f ix l : ℂ)) k) j).re

/-- `__fft_solve__` (field.py lines 39-49):
`np.real(fft.ifft(1j * one_over_kx * fft.fft(net_charge_density)))`. -/
noncomputable def fftSolve (nx : ℕ) (netChargeDensity : ℕ → ℝ)
    (ook : ℕ → ℝ) (i : ℕ) : ℝ :=
  (ifft nx (fun k => Complex.I * (ook k : ℂ)
    * fft nx (fun l => (netChargeDensity l : ℂ)) k) i).re

/-- `compute_charges` (field.py lines 27-36): per-row trapezoidal velocity
integral of `f`. -/
noncomputable def computeCharges (f : ℕ → ℕ → ℝ) (dv : ℝ) (nv : ℕ) (ix : ℕ) : ℝ :=
  trapz dv nv (f ix)

/-- `solve_for_field` (field.py lines 52-63): spectral solve of the net
charge density `1 - charge_density`. -/
noncomputable def solveForField (nx : ℕ) (chargeDensity : ℕ → ℝ)
    (ook : ℕ → ℝ) (i : ℕ) : ℝ :=
  fftSolve nx (fun l => 1 - chargeDensity l) ook i

/-- `solve_total_electric_field` (field.py lines 76-86, from
`get_spectral_solver`): the driver field plus the self-consistent field. -/
noncomputable def solveTotalElectricField (nx nv : ℕ) (dv : ℝ)
    (ook : ℕ → ℝ) (driverField : ℕ → ℝ) (f : ℕ → ℕ → ℝ) (i : ℕ) : ℝ :=
  driverField i + solveForField nx (computeCharges f dv nv) ook i

/-- The spec's description of the total field, written independently:
`ρ` is the trapezoidal velocity integral of `f`, the net charge density is
`1 - ρ`, its FFT is multiplied by `i·(1/kx)` with the zero mode explicitly
excluded (set to `0` rather than formed with a reciprocal of `kx[0] = 0`),
the result is inverse-transformed and its real part taken, and the driver
is added on top. -/
noncomputable def specTotalField (nx nv : ℕ) (dx dv : ℝ)
    (driverField : ℕ → ℝ) (f : ℕ → ℕ → ℝ) (i : ℕ) : ℝ :=
  driverField i + (ifft nx (fun k =>
    if k = 0 then 0
    else Complex.I * ((1 / kxAxis nx dx k : ℝ) : ℂ)
      * fft nx (fun l => ((1 - trapz dv nv (f l) : ℝ) : ℂ)) k) i).re

/-- C3: the spectral field solver, instantiated with the `one_over_kx`
array built by the initializer, returns the driver plus the real part of
the inverse FFT of `i·(1/kx)` (zero mode excluded) times the FFT of
`1 - ρ`, where `ρ` is the trapezoidal velocity integral of `f`. -/
theorem claim3_spectral_field_solver (nx nv : ℕ) (dx dv : ℝ)
    (driverField : ℕ → ℝ) (f : ℕ → ℕ → ℝ) (i : ℕ) :
    solveTotalElectricField nx nv dv (oneOverKx nx dx) driverField f i
      = specTotalField nx nv dx dv driverField f i := by
  unfold solveTotalElectricField specTotalField solveForField fftSolve
    computeCharges
  congr 1
  congr 1
  unfold ifft
  congr 1
  apply Finset.sum_congr rfl
  intro k _
  beta_reduce
  by_cases hk : k = 0
  · subst hk
    rw [if_pos rfl]
    have h0 : oneOverKx nx dx 0 = 0 := rfl
    rw [h0]
    push_cast
    ring
  · rw [if_neg hk]
    have h0 : oneOverKx nx dx k = 1 / kxAxis nx dx k := by
      unfold oneOverKx
      rw [if_neg hk]
    rw [h0]

/-- C9: the constructed `one_over_kx` has its zero-frequency entry equal
to exactly `0`; every other in-range entry equals `1/kx` at that index and
the corresponding `kx` is nonzero (so no reciprocal of the zero wavenumber
is ever formed); and consequently the zero mode of the solved
self-consistent field vanishes: the field returned by `__fft_solve__` sums
to zero over the spatial cells. -/
theorem claim9_one_over_kx_zero_mode (nx : ℕ) (dx : ℝ) (hdx : 0 < dx) :
    oneOverKx nx dx 0 = 0 ∧
    (∀ j, 1 ≤ j → j < nx →
      kxAxis nx dx j ≠ 0 ∧ oneOverKx nx dx j = 1 / kxAxis nx dx j) ∧
    (0 < nx → ∀ ncd : ℕ → ℝ,
      ∑ i ∈ Finset.range nx, fftSolve nx ncd (oneOverKx nx dx) i = 0) := by
  refine ⟨rfl, ?_, ?_⟩
  · intro j h1 h2
    have hnx : 0 < nx := by omega
    have hnd : (0 : ℝ) < (nx : ℝ) * dx :=
      mul_pos (by exact_mod_cast hnx) hdx
    constructor
    · unfold kxAxis fftfreq
      by_cases hcond : j ≤ (nx - 1) / 2
      · rw [if_pos hcond]
        have hj : (0 : ℝ) < (j : ℝ) := by exact_mod_cast h1
        exact ne_of_gt (mul_pos (div_pos hj hnd) Real.two_pi_pos)
      · rw [if_neg hcond]
        have hj : (j : ℝ) < (nx : ℝ) := by exact_mod_cast h2
        exact ne_of_lt (mul_neg_of_neg_of_pos
          (div_neg_of_neg_of_pos (by linarith) hnd) Real.two_pi_pos)
    · unfold oneOverKx
      rw [if_neg (by omega)]
  · intro hnx ncd
    unfold fftSolve
    rw [← Complex.re_sum, sum_ifft nx hnx]
    have h0 : oneOverKx nx dx 0 = 0 := rfl
    rw [h0]
    norm_num

/-- C10: both spectral exponential Vlasov sub-steps conserve the discrete
mass sums exactly in exact arithmetic: the velocity-advection step leaves
the sum of `f` over the velocity axis unchanged at every spatial cell, and
the spatial-advection step leaves the sum over the spatial axis unchanged
at every velocity cell, because the zero-wavenumber mode (the first entry
of the `fftfreq`-ordered axis) is multiplied by `exp(0) = 1`. -/
theorem claim10_exponential_advection_conserves_sums (nx nv : ℕ)
    (hnx : 0 < nx) (hnv : 0 < nv) (dx dv dt : ℝ) (v e : ℕ → ℝ)
    (f : ℕ → ℕ → ℝ) :
    (∀ ix, ∑ j ∈ Finset.range nv,
        stepEdfdvExponential nv (kvAxis nv dv) f e dt ix j
      = ∑ j ∈ Finset.range nv, f ix j) ∧
    (∀ j, ∑ ix ∈ Finset.range nx,
        stepVdfdxExponential nx (kxAxis nx dx) v f dt ix j
      = ∑ ix ∈ Finset.range nx, f ix j) := by
  constructor
  · intro ix
    unfold stepEdfdvExponential
    have hM : Complex.exp (-(Complex.I * kvAxis nv dv 0 * dt * e ix)) = 1 := by
      have hk0 : kvAxis nv dv 0 = 0 := by
        unfold kvAxis fftfreq
        rw [if_pos (by omega)]
        norm_num
      rw [hk0]
      norm_num
    rw [← Complex.re_sum, sum_ifft_phase_mul nv hnv _ hM,
      ← Complex.ofReal_sum, Complex.ofReal_re]
  · intro j
    unfold stepVdfdxExponential
    have hM : Complex.exp (-(Complex.I * kxAxis nx dx 0 * dt * v j)) = 1 := by
      have hk0 : kxAxis nx dx 0 = 0 := by
        unfold kxAxis fftfreq
        rw [if_pos (by omega)]
        norm_num
      rw [hk0]
      norm_num
    rw [← Complex.re_sum, sum_ifft_phase_mul nx hnx _ hM,
      ← Complex.ofReal_sum, Complex.ofReal_re]

/-- Witness for C9 on the concrete axis `nx = 4`, `dx = 1`. -/
theorem claim9_one_over_kx_zero_mode_witness :
    (0 : ℝ) < 1 ∧
    (oneOverKx 4 1 0 = 0 ∧
     (∀ j, 1 ≤ j → j < 4 →
       kxAxis 4 1 j ≠ 0 ∧ oneOverKx 4 1 j = 1 / kxAxis 4 1 j) ∧
     (0 < 4 → ∀ ncd : ℕ → ℝ,
       ∑ i ∈ Finset.range 4, fftSolve 4 ncd (oneOverKx 4 1) i = 0)) :=
  ⟨by norm_num, claim9_one_over_kx_zero_mode 4 1 (by norm_num)⟩

/-- Witness for C10 on a concrete 2×2 grid. -/
theorem claim10_exponential_advection_conserves_sums_witness :
    ((0 : ℕ) < 2 ∧ (0 : ℕ) < 2) ∧
    ((∀ ix, ∑ j ∈ Finset.range 2,
        stepEdfdvExponential 2 (kvAxis 2 1) (fun _ _ => 1) (fun _ => 1) 1 ix j
      = ∑ j ∈ Finset.range 2, (fun _ _ => (1 : ℝ)) ix j) ∧
    (∀ j, ∑ ix ∈ Finset.range 2,
        stepVdfdxExponential 2 (kxAxis 2 1) (fun _ => 1) (fun _ _ => 1) 1 ix j
      = ∑ ix ∈ Finset.range 2, (fun _ _ => (1 : ℝ)) ix j)) :=
  ⟨⟨by norm_num, by norm_num⟩,
   claim10_exponential_advection_conserves_sums 2 2 (by norm_num) (by norm_num)
     1 1 1 (fun _ => 1) (fun _ => 1) (fun _ _ => 1)⟩

/-! ## Distribution-function initializer

`initialize` from `src/vlapy/core/step.py` lines 28-50: every spatial row
is set to `exp(-v²/2)` on the cell-centered velocity grid
`np.linspace(-vmax + dv/2, vmax - dv/2, nv)` with `dv = 2*vmax/nv`, and the
whole array is then divided by `np.sum(f[0]) * dv` (the code divides by the
plain row sum and by `dv`, not by the trapezoidal quadrature). -/

/-- The cell-centered velocity grid of the initializer (spacing
`dv = 2*vmax/nv` and first center at `-vmax + dv/2`, which is also the
linspace spacing since `(2*vmax - dv)/(nv - 1) = dv`). -/
noncomputable def initVax (nv : ℕ) (vmax : ℝ) (j : ℕ) : ℝ :=
  -vmax + (2 * vmax / nv) / 2 + j * (2 * vmax / nv)

/-- The unnormalized Maxwellian row `exp(-vax**2 / 2)`. -/
noncomputable def initMaxwellian (nv : ℕ) (vmax : ℝ) (j : ℕ) : ℝ :=
  Real.exp (-(initVax nv vmax j ^ 2) / 2)

/-- `initialize(nx, nv, vmax)` at entry `(ix, j)`:
`f = f / np.sum(f[0, :]) / dv`. -/
noncomputable def initializeF (_nx nv : ℕ) (vmax : ℝ) (_ix j : ℕ) : ℝ :=
  initMaxwellian nv vmax j
    / (∑ l ∈ Finset.range nv, initMaxwellian nv vmax l) / (2 * vmax / nv)

/-- C8 is false as stated: at `nx = 1`, `nv = 2`, `vmax = 1` the two cell
centers are `∓1/2`, the normalized row is `(1/2, 1/2)`, and its
trapezoidal velocity integral is `1/2`, not `1` (the code normalizes the
plain Riemann sum `dv * Σ f`, not the trapezoidal quadrature, which on
this row equals `1 - dv · (f₀ + f_{nv-1})/2 < 1`). -/
theorem claim8_counterexample :
    trapz 1 2 (initializeF 1 2 1 0) = 1 / 2 ∧
    trapz 1 2 (initializeF 1 2 1 0) ≠ 1 := by
  have key : trapz 1 2 (initializeF 1 2 1 0) = 1 / 2 := by
    have hv0 : initVax 2 1 0 = -(1 / 2) := by
      unfold initVax
      norm_num
    have hv1 : initVax 2 1 1 = 1 / 2 := by
      unfold initVax
      norm_num
    have hexp : ∀ j < 2, initMaxwellian 2 1 j = Real.exp (-(1 / 8)) := by
      intro j hj
      interval_cases j
      · unfold initMaxwellian
        rw [hv0]
        norm_num
      · unfold initMaxwellian
        rw [hv1]
        norm_num
    have he : Real.exp (-(1 / 8) : ℝ) ≠ 0 := Real.exp_ne_zero _
    unfold trapz initializeF
    rw [Finset.sum_range_succ, Finset.sum_range_succ, Finset.sum_range_zero,
      hexp 0 (by omega), hexp 1 (by omega)]
    rw [Finset.sum_range_succ, Finset.sum_range_zero, hexp 0 (by omega)]
    push_cast
    field_simp
  exact ⟨key, by rw [key]; norm_num⟩

/-- C8 (amended): for every `nx, nv > 0` and `vmax > 0` the initializer
returns `f` with all spatial rows identical, each row a positive multiple
of `exp(-v²/2)` on the cell-centered velocity grid, normalized so that the
plain Riemann-sum velocity integral `dv * Σ_j f[ix, j]` of each row equals
`1` (the trapezoidal integral of a row is `1` minus the boundary term
`dv·(f₀ + f_{nv-1})/2`). -/
theorem claim8_amended_initializer (nx nv : ℕ) (vmax : ℝ) (hnv : 0 < nv)
    (hvmax : 0 < vmax) :
    (∀ ix ix' j, initializeF nx nv vmax ix j = initializeF nx nv vmax ix' j) ∧
    (∃ cnorm : ℝ, 0 < cnorm ∧ ∀ ix j,
      initializeF nx nv vmax ix j
        = cnorm * Real.exp (-(initVax nv vmax j ^ 2) / 2)) ∧
    (∀ ix, (2 * vmax / nv) * ∑ j ∈ Finset.range nv,
      initializeF nx nv vmax ix j = 1) := by
  have hS : 0 < ∑ l ∈ Finset.range nv, initMaxwellian nv vmax l :=
    Finset.sum_pos (fun l _ => Real.exp_pos _)
      (Finset.nonempty_range_iff.mpr (by omega))
  have hnv' : (0 : ℝ) < (nv : ℝ) := by exact_mod_cast hnv
  have hdv : (0 : ℝ) < 2 * vmax / nv := by positivity
  refine ⟨fun ix ix' j => rfl, ?_, ?_⟩
  · refine ⟨1 / ((∑ l ∈ Finset.range nv, initMaxwellian nv vmax l)
      * (2 * vmax / nv)), by positivity, ?_⟩
    intro ix j
    unfold initializeF initMaxwellian
    field_simp
    ring
  · intro ix
    unfold initializeF
    rw [show (∑ j ∈ Finset.range nv, initMaxwellian nv vmax j
        / (∑ l ∈ Finset.range nv, initMaxwellian nv vmax l) / (2 * vmax / nv))
      = (∑ j ∈ Finset.range nv, initMaxwellian nv vmax j)
        / (∑ l ∈ Finset.range nv, initMaxwellian nv vmax l) / (2 * vmax / nv)
      by rw [Finset.sum_div, Finset.sum_div]]
    field_simp

/-- Witness for C8 (amended) at `nx = 1`, `nv = 2`, `vmax = 1`. -/
theorem claim8_amended_initializer_witness :
    ((0 : ℕ) < 2 ∧ (0 : ℝ) < 1) ∧
    ((∀ ix ix' j, initializeF 1 2 1 ix j = initializeF 1 2 1 ix' j) ∧
     (∃ cnorm : ℝ, 0 < cnorm ∧ ∀ ix j,
       initializeF 1 2 1 ix j = cnorm * Real.exp (-(initVax 2 1 j ^ 2) / 2)) ∧
     (∀ ix, ((2 : ℝ) * 1 / (2 : ℕ)) * ∑ j ∈ Finset.range 2,
       initializeF 1 2 1 ix j = 1)) :=
  ⟨⟨by norm_num, by norm_num⟩,
   claim8_amended_initializer 1 2 1 (by norm_num) (by norm_num)⟩

/-! ## Field drivers

Two driver variants exist in the repository.

`src/vlapy/core/field_driver.py` (`get_driver_function`, lines 93-113):
pulses use the degree-5 smoothstep envelope and a cosine carrier.  The loop
over the pulse dictionary only overwrites `kk`, `ww` and `envelope`; the
accumulation `total_field += envelope * np.cos(kk*x - ww*t)` stands *after*
the loop, guarded by `np.abs(envelope) > 0.0`.  Python dictionaries iterate
in insertion order, so the returned field carries the envelope and wave
numbers of the *last* pulse only.  The dictionary is embedded as the list
of its pulses in iteration order.

`src/vlapy/field_driver.py` (`get_driver_function`, lines 24-50): pulses
use a difference-of-tanh envelope and a sine carrier, and the accumulation
stands *inside* the loop, so every pulse contributes. -/

/-- One smoothstep pulse descriptor of the core driver. -/
structure Pulse where
  startTime : ℝ
  riseTime : ℝ
  flatTime : ℝ
  fallTime : ℝ
  a0 : ℝ
  k0 : ℝ
  w0 : ℝ

/-- The degree-5 smoothstep `6t⁵ - 15t⁴ + 10t³`
(`_get_rise_fall_coeff_`, lines 26-43). -/
noncomputable def getRiseFallCoeff (t : ℝ) : ℝ :=
  6 * t ^ 5 - 15 * t ^ 4 + 10 * t ^ 3

/-- `get_pulse_coefficient` (lines 46-90): the envelope value of one pulse
at time `tt`, scaled by its amplitude `a0`; zero outside the open interval
`(start_time, end_time)`. -/
noncomputable def getPulseCoefficient (p : Pulse) (tt : ℝ) : ℝ :=
  if p.startTime < tt ∧
      tt < p.startTime + p.riseTime + p.flatTime + p.fallTime then
    (if tt ≤ p.startTime + p.riseTime then
      getRiseFallCoeff ((tt - p.startTime) / p.riseTime)
    else if p.startTime + p.riseTime < tt ∧
        tt < p.startTime + p.riseTime + p.flatTime then 1
    else if p.startTime + p.riseTime + p.flatTime ≤ tt then
      1 - getRiseFallCoeff
        ((tt - (p.startTime + p.riseTime + p.flatTime)) / p.fallTime)
    else 0) * p.a0
  else 0

/-- The core `driver_function` at spatial index `i`: the loop state is the
triple `(kk, ww, envelope)`, overwritten by each pulse in iteration order;
the single accumulation after the loop adds the traveling wave of the
final state to the zero field when `|envelope| > 0`. -/
noncomputable def driverFunction (x : ℕ → ℝ) (pulses : List Pulse)
    (currentTime : ℝ) (i : ℕ) : ℝ :=
  let st := pulses.foldl
    (fun _ p => (p.k0, p.w0, getPulseCoefficient p currentTime))
    ((0 : ℝ), (0 : ℝ), (0 : ℝ))
  if |st.2.2| > 0 then
    0 + st.2.2 * Real.cos (st.1 * x i - st.2.1 * currentTime)
  else 0

/-- The superposition the claim asserts the driver returns: the sum over
all descriptors of `amplitude(t) · cos(k₀·x - ω₀·t)`. -/
noncomputable def claimedDriverSum (x : ℕ → ℝ) (pulses : List Pulse)
    (t : ℝ) (i : ℕ) : ℝ :=
  (pulses.map
    (fun p => getPulseCoefficient p t * Real.cos (p.k0 * x i - p.w0 * t))).sum

/-- One tanh pulse descriptor of the `vlapy/field_driver.py` driver. -/
structure TanhPulse where
  k0 : ℝ
  w0 : ℝ
  tL : ℝ
  tR : ℝ
  twL : ℝ
  twR : ℝ
  a0 : ℝ

/-- The contribution of one tanh pulse:
`0.5·(tanh((t-t_L)/t_wL) - tanh((t-t_R)/t_wR)) · k0 · a0 · sin(k0·x - w0·t)`. -/
noncomputable def tanhPulseTerm (x : ℕ → ℝ) (p : TanhPulse) (t : ℝ)
    (i : ℕ) : ℝ :=
  0.5 * (Real.tanh ((t - p.tL) / p.twL) - Real.tanh ((t - p.tR) / p.twR))
    * p.k0 * p.a0 * Real.sin (p.k0 * x i - p.w0 * t)

/-- The tanh-variant `driver_function`: `total_field` starts at zero and
the accumulation stands inside the loop over pulses. -/
noncomputable def tanhDriverFunction (x : ℕ → ℝ) (pulses : List TanhPulse)
    (t : ℝ) (i : ℕ) : ℝ :=
  pulses.foldl (fun acc p => acc + tanhPulseTerm x p t i) 0

/-- C6 is false as stated on the core driver: with two pulse descriptors —
the first in its flat phase with unit amplitude and zero wavenumber and
frequency, the second not yet started at the query time `3/2` — the
claimed superposition equals `1`, but the driver returns `0`, because the
loop has overwritten the envelope with the second pulse's value `0`. -/
theorem claim6_counterexample :
    driverFunction (fun _ => 0)
      [Pulse.mk 0 1 1 1 1 0 0, Pulse.mk 10 1 1 1 1 0 0] (3 / 2) 0 = 0 ∧
    claimedDriverSum (fun _ => 0)
      [Pulse.mk 0 1 1 1 1 0 0, Pulse.mk 10 1 1 1 1 0 0] (3 / 2) 0 = 1 ∧
    driverFunction (fun _ => 0)
      [Pulse.mk 0 1 1 1 1 0 0, Pulse.mk 10 1 1 1 1 0 0] (3 / 2) 0
      ≠ claimedDriverSum (fun _ => 0)
        [Pulse.mk 0 1 1 1 1 0 0, Pulse.mk 10 1 1 1 1 0 0] (3 / 2) 0 := by
  have hc1 : getPulseCoefficient (Pulse.mk 0 1 1 1 1 0 0) (3 / 2) = 1 := by
    unfold getPulseCoefficient
    rw [if_pos (by norm_num), if_neg (by norm_num), if_pos (by norm_num)]
    norm_num
  have hc2 : getPulseCoefficient (Pulse.mk 10 1 1 1 1 0 0) (3 / 2) = 0 := by
    unfold getPulseCoefficient
    rw [if_neg (by norm_num)]
  have hd : driverFunction (fun _ => 0)
      [Pulse.mk 0 1 1 1 1 0 0, Pulse.mk 10 1 1 1 1 0 0] (3 / 2) 0 = 0 := by
    unfold driverFunction
    simp only [List.foldl_cons, List.foldl_nil, hc2]
    norm_num
  have hs : claimedDriverSum (fun _ => 0)
      [Pulse.mk 0 1 1 1 1 0 0, Pulse.mk 10 1 1 1 1 0 0] (3 / 2) 0 = 1 := by
    unfold claimedDriverSum
    simp only [List.map_cons, List.map_nil, List.sum_cons, List.sum_nil,
      hc1, hc2]
    norm_num
  exact ⟨hd, hs, by rw [hd, hs]; norm_num⟩

/-- C6 (amended): the tanh/sine driver variant superposes the
envelope-weighted traveling waves of *all* descriptors, and so does the
smoothstep/cosine core driver when the dictionary holds exactly one
descriptor; with several descriptors the core driver returns only the
envelope-weighted traveling wave of the last descriptor in dictionary
iteration order. -/
theorem claim6_amended_driver :
    (∀ (x : ℕ → ℝ) (l : List Pulse) (p : Pulse) (t : ℝ) (i : ℕ),
      driverFunction x (l ++ [p]) t i
        = getPulseCoefficient p t * Real.cos (p.k0 * x i - p.w0 * t)) ∧
    (∀ (x : ℕ → ℝ) (p : Pulse) (t : ℝ) (i : ℕ),
      driverFunction x [p] t i = claimedDriverSum x [p] t i) ∧
    (∀ (x : ℕ → ℝ) (pulses : List TanhPulse) (t : ℝ) (i : ℕ),
      tanhDriverFunction x pulses t i
        = (pulses.map (fun p => tanhPulseTerm x p t i)).sum) := by
  have hlast : ∀ (x : ℕ → ℝ) (l : List Pulse) (p : Pulse) (t : ℝ) (i : ℕ),
      driverFunction x (l ++ [p]) t i
        = getPulseCoefficient p t * Real.cos (p.k0 * x i - p.w0 * t) := by
    intro x l p t i
    unfold driverFunction
    rw [List.foldl_append]
    simp only [List.foldl_cons, List.foldl_nil]
    by_cases h : |getPulseCoefficient p t| > 0
    · rw [if_pos h]
      ring
    · rw [if_neg h]
      have h0 : getPulseCoefficient p t = 0 := by
        have := abs_nonneg (getPulseCoefficient p t)
        have := abs_eq_zero.mp (le_antisymm (not_lt.mp h) this)
        exact this
      rw [h0, zero_mul]
  refine ⟨hlast, ?_, ?_⟩
  · intro x p t i
    have h := hlast x [] p t i
    simp only [List.nil_append] at h
    rw [h]
    unfold claimedDriverSum
    simp
  · intro x pulses t i
    have key : ∀ (l : List TanhPulse) (acc : ℝ),
        l.foldl (fun a p => a + tanhPulseTerm x p t i) acc
          = acc + (l.map (fun p => tanhPulseTerm x p t i)).sum := by
      intro l
      induction l with
      | nil => intro acc; simp
      | cons q l ih =>
        intro acc
        simp only [List.foldl_cons, List.map_cons, List.sum_cons, ih]
        ring
    unfold tanhDriverFunction
    rw [key pulses 0, zero_add]

/-- Coherence of the two embeddings of `_batched_tridiag_solver_`: on a
concrete 1×3 system the store-level column loops and the per-row Thomas
recurrences compute the same result array. -/
lemma batchedTridiagSolverStore_matches_thomasX_example :
    storeRead (batchedTridiagSolverStore 3
        (Store.mk [[[1, 1]], [[4, 4, 4]], [[1, 1]], [[6, 6, 6]]]) 0 1 2 3).2
      (batchedTridiagSolverStore 3
        (Store.mk [[[1, 1]], [[4, 4, 4]], [[1, 1]], [[6, 6, 6]]]) 0 1 2 3).1
      = [[9 / 7, 6 / 7, 9 / 7]] ∧
    (∀ j < 3, batchedTridiagSolver 3 (fun _ l => [(1 : ℚ), 1].getD l 0)
        (fun _ l => [(4 : ℚ), 4, 4].getD l 0) (fun _ l => [(1 : ℚ), 1].getD l 0)
        (fun _ l => [(6 : ℚ), 6, 6].getD l 0) 0 j
      = [(9 : ℚ) / 7, 6 / 7, 9 / 7].getD j 0) := by
  constructor
  · have hr1 : List.range' 1 2 = [1, 2] := rfl
    have hr2 : (List.range 2).reverse = [1, 0] := rfl
    norm_num [batchedTridiagSolverStore, forwardStep, backStep, storeAlloc,
      storeRead, storeWrite, colGet, colSet, hr1, hr2]
  · intro j hj
    interval_cases j <;>
      norm_num [batchedTridiagSolver, thomasX, thomasXAux, thomasBC, thomasDC]

end VlaPy
